import Mathlib

/-!
# Verification of `precise_patterns` core

Shallow embedding of the two core components of the repository:

* `precise_patterns/doubly_linked_list.py` — a node-based doubly linked list.
  Python node objects live on a heap; we model the heap as a partial map
  `Nat → Option (DNode α)` from node ids to nodes, and a node reference as the
  node's id.  A fresh id is drawn from an allocation counter `nextId`, so a
  newly constructed `Node(...)` always gets an id unused by any live node.
  Python's `int` size counter is modelled as `Int`.

* `precise_patterns/base/pattern.py` — the self-registering pattern plugin
  system (`BasePattern.__init_subclass__` plus `Registry`).  Python dicts with
  string keys are modelled as insertion-ordered association lists, and Python
  exceptions as explicit error values threaded with the state at raise time.
-/

namespace PrecisePatterns

/-- One heap node of the linked list: `Node.__init__` stores `value`, `prev`,
`next`; the `prev`/`next` references are modelled as optional node ids. -/
structure DNode (α : Type) where
  value : α
  prev : Option Nat
  next : Option Nat
  deriving DecidableEq, Repr

/-- The list object `DoublyLinkedList.__init__` plus the heap of nodes it owns.
`nodes` is the heap (id ↦ node), `nextId` the allocator for fresh ids;
`head`, `tail`, `size` are the fields `_head`, `_tail`, `_size`. -/
structure DLL (α : Type) where
  nodes : Nat → Option (DNode α)
  nextId : Nat
  head : Option Nat
  tail : Option Nat
  size : Int

namespace DLL

variable {α : Type}

/-- `DoublyLinkedList()`: empty list, empty heap. -/
def empty : DLL α :=
  { nodes := fun _ => none, nextId := 0, head := none, tail := none, size := 0 }

/-- Heap update of one node's `next` field (`node.next = x` in Python). -/
def setNext (f : Nat → Option (DNode α)) (i : Nat) (x : Option Nat) :
    Nat → Option (DNode α) :=
  fun j => if j = i then (f i).map (fun nd => { nd with next := x }) else f j

/-- Heap update of one node's `prev` field (`node.prev = x` in Python). -/
def setPrev (f : Nat → Option (DNode α)) (i : Nat) (x : Option Nat) :
    Nat → Option (DNode α) :=
  fun j => if j = i then (f i).map (fun nd => { nd with prev := x }) else f j

/-- `append(value)`: `node = Node(value, prev=self._tail)`; if the tail
exists its `next` is pointed at the new node, otherwise the new node becomes
head; the new node becomes tail and the size grows.  Returns the new state
together with the id of the returned node. -/
def append (l : DLL α) (v : α) : DLL α × Nat :=
  let i := l.nextId
  let f := Function.update l.nodes i (some ⟨v, l.tail, none⟩)
  match l.tail with
  | some t =>
      ({ nodes := setNext f t (some i), nextId := i + 1, head := l.head,
         tail := some i, size := l.size + 1 }, i)
  | none =>
      ({ nodes := f, nextId := i + 1, head := some i,
         tail := some i, size := l.size + 1 }, i)

/-- `appendleft(value)`: symmetric to `append` at the head. -/
def appendleft (l : DLL α) (v : α) : DLL α × Nat :=
  let i := l.nextId
  let f := Function.update l.nodes i (some ⟨v, none, l.head⟩)
  match l.head with
  | some h =>
      ({ nodes := setPrev f h (some i), nextId := i + 1, head := some i,
         tail := l.tail, size := l.size + 1 }, i)
  | none =>
      ({ nodes := f, nextId := i + 1, head := some i,
         tail := some i, size := l.size + 1 }, i)

/-- `remove_node(node)`: relink the neighbours of `node` (or move head/tail
when `node` is an end), clear `node`'s own links, decrement the size.  The
argument is the id of the node; a Python caller can only pass a reference to
an actual node object, so the dangling branch (id absent from the heap) is
unreachable and modelled as a no-op. -/
def removeNode (l : DLL α) (i : Nat) : DLL α :=
  match l.nodes i with
  | none => l
  | some nd =>
    let f₁ := match nd.prev with
      | some p => setNext l.nodes p nd.next
      | none => l.nodes
    let head₁ := match nd.prev with
      | some _ => l.head
      | none => nd.next
    let f₂ := match nd.next with
      | some nx => setPrev f₁ nx nd.prev
      | none => f₁
    let tail₁ := match nd.next with
      | some _ => l.tail
      | none => nd.prev
    { nodes := Function.update f₂ i (some ⟨nd.value, none, none⟩),
      nextId := l.nextId, head := head₁, tail := tail₁, size := l.size - 1 }

/-- `pop()`: raises `IndexError("pop from empty list")` when the tail is
absent, else reads the tail value and removes the tail node.  The heap lookup
of the tail id cannot fail for a reference obtained from the list (the
`dangling` branch is unreachable). -/
def pop (l : DLL α) : Except String (α × DLL α) :=
  match l.tail with
  | none => .error "pop from empty list"
  | some t =>
    match l.nodes t with
    | none => .error "dangling"
    | some nd => .ok (nd.value, l.removeNode t)

/-- `popleft()`: raises `IndexError("popleft from empty list")` when the head
is absent, else reads the head value and removes the head node. -/
def popleft (l : DLL α) : Except String (α × DLL α) :=
  match l.head with
  | none => .error "popleft from empty list"
  | some h =>
    match l.nodes h with
    | none => .error "dangling"
    | some nd => .ok (nd.value, l.removeNode h)

/-- `insert_after(node, value)`: `new_node = Node(value, prev=node,
next=node.next)`; if `node.next` exists its `prev` is redirected to the new
node, otherwise the new node becomes tail; finally `node.next` is pointed at
the new node.  Returns the new state and the new node's id. -/
def insertAfter (l : DLL α) (i : Nat) (v : α) : DLL α × Nat :=
  match l.nodes i with
  | none => (l, l.nextId)
  | some nd =>
    let j := l.nextId
    let f := Function.update l.nodes j (some ⟨v, some i, nd.next⟩)
    let f₁ := match nd.next with
      | some nx => setPrev f nx (some j)
      | none => f
    let tail₁ := match nd.next with
      | some _ => l.tail
      | none => some j
    ({ nodes := setNext f₁ i (some j), nextId := j + 1, head := l.head,
       tail := tail₁, size := l.size + 1 }, j)

/-- `insert_before(node, value)`: symmetric to `insert_after`. -/
def insertBefore (l : DLL α) (i : Nat) (v : α) : DLL α × Nat :=
  match l.nodes i with
  | none => (l, l.nextId)
  | some nd =>
    let j := l.nextId
    let f := Function.update l.nodes j (some ⟨v, nd.prev, some i⟩)
    let f₁ := match nd.prev with
      | some p => setNext f p (some j)
      | none => f
    let head₁ := match nd.prev with
      | some _ => l.head
      | none => some j
    ({ nodes := setPrev f₁ i (some j), nextId := j + 1, head := head₁,
       tail := l.tail, size := l.size + 1 }, j)

/-- `clear()`: reset to the empty state (heap entries become unreachable). -/
def clear (l : DLL α) : DLL α :=
  { l with head := none, tail := none, size := 0 }

/-- `__len__`: returns `_size`. -/
def length (l : DLL α) : Int := l.size

/-- Forward walk of the heap from a start reference, following `next` links,
collecting `(id, value)` pairs.  Python's `__iter__` loops `while current`;
on a list satisfying the structural invariant the walk stops after exactly
`size` steps, so fuel `size` renders the loop faithfully. -/
def fwdAux (f : Nat → Option (DNode α)) : Nat → Option Nat → List (Nat × α)
  | 0, _ => []
  | _ + 1, none => []
  | fuel + 1, some i =>
    match f i with
    | none => []
    | some nd => (i, nd.value) :: fwdAux f fuel nd.next

/-- Backward walk following `prev` links (Python's `__reversed__`). -/
def bwdAux (f : Nat → Option (DNode α)) : Nat → Option Nat → List (Nat × α)
  | 0, _ => []
  | _ + 1, none => []
  | fuel + 1, some i =>
    match f i with
    | none => []
    | some nd => (i, nd.value) :: bwdAux f fuel nd.prev

/-- The `(id, value)` pairs visited by forward traversal (`__iter__`). -/
def fwdPairs (l : DLL α) : List (Nat × α) := fwdAux l.nodes l.size.toNat l.head

/-- The `(id, value)` pairs visited by backward traversal (`__reversed__`). -/
def bwdPairs (l : DLL α) : List (Nat × α) := bwdAux l.nodes l.size.toNat l.tail

/-- The values yielded by `__iter__`. -/
def toList (l : DLL α) : List α := l.fwdPairs.map Prod.snd

/-- The values yielded by `__reversed__`. -/
def toListRev (l : DLL α) : List α := l.bwdPairs.map Prod.snd

/-- The node ids visited by forward traversal. -/
def fwdNodes (l : DLL α) : List Nat := l.fwdPairs.map Prod.fst

/-- The node ids visited by backward traversal. -/
def bwdNodes (l : DLL α) : List Nat := l.bwdPairs.map Prod.fst

/-- The id of the first node of a segment, or the fallback pointer when the
segment is empty. -/
def hdPtr : List (Nat × α) → Option Nat → Option Nat
  | [], q => q
  | (j, _) :: _, _ => some j

/-- The id of the last node of a segment, or the fallback pointer when the
segment is empty. -/
def lastPtr : List (Nat × α) → Option Nat → Option Nat
  | [], p => p
  | (i, _) :: rest, _ => lastPtr rest (some i)

/-- `chain f p ps q`: on heap `f` the `(id, value)` pairs `ps` form a doubly
linked segment: each listed node holds its listed value, its `prev` points at
the preceding listed node (`p` for the first) and its `next` at the following
listed node (`q` for the last). -/
def chain (f : Nat → Option (DNode α)) : Option Nat → List (Nat × α) → Option Nat → Prop
  | _, [], _ => True
  | p, (i, v) :: rest, q =>
    f i = some ⟨v, p, hdPtr rest q⟩ ∧ chain f (some i) rest q

theorem hdPtr_append (xs ys : List (Nat × α)) (q : Option Nat) :
    hdPtr (xs ++ ys) q = hdPtr xs (hdPtr ys q) := by
  cases xs with
  | nil => rfl
  | cons x xs => cases x; rfl

theorem lastPtr_append (xs ys : List (Nat × α)) (p : Option Nat) :
    lastPtr (xs ++ ys) p = lastPtr ys (lastPtr xs p) := by
  induction xs generalizing p with
  | nil => rfl
  | cons x xs ih => cases x; simpa [lastPtr] using ih _

/-- A chain only constrains the heap at the listed ids. -/
theorem chain_congr {f g : Nat → Option (DNode α)} {ps : List (Nat × α)}
    {p q : Option Nat} (hfg : ∀ x ∈ ps, g x.1 = f x.1) (h : chain f p ps q) :
    chain g p ps q := by
  induction ps generalizing p with
  | nil => trivial
  | cons x rest ih =>
    obtain ⟨i, v⟩ := x
    obtain ⟨h1, h2⟩ := h
    exact ⟨(hfg (i, v) (by simp)).trans h1,
      ih (fun y hy => hfg y (by simp [hy])) h2⟩

/-- Splitting a chain at a list concatenation. -/
theorem chain_append {f : Nat → Option (DNode α)} (xs ys : List (Nat × α))
    (p q : Option Nat) :
    chain f p (xs ++ ys) q ↔
      chain f p xs (hdPtr ys q) ∧ chain f (lastPtr xs p) ys q := by
  induction xs generalizing p with
  | nil => simp [chain, lastPtr]
  | cons x rest ih =>
    obtain ⟨i, v⟩ := x
    simp only [List.cons_append, chain, lastPtr, ih, hdPtr_append, List.append_eq]
    tauto

/-- Splitting a chain at its last node. -/
theorem chain_snoc {f : Nat → Option (DNode α)} (xs : List (Nat × α))
    (t : Nat) (v : α) (p q : Option Nat) :
    chain f p (xs ++ [(t, v)]) q ↔
      chain f p xs (some t) ∧ f t = some ⟨v, lastPtr xs p, q⟩ := by
  rw [chain_append]
  simp [chain, hdPtr]

/-- A forward walk with fuel equal to the segment length visits exactly the
segment, in order. -/
theorem fwdAux_of_chain {f : Nat → Option (DNode α)} {ps : List (Nat × α)}
    {p : Option Nat} (h : chain f p ps none) :
    fwdAux f ps.length (hdPtr ps none) = ps := by
  induction ps generalizing p with
  | nil => rfl
  | cons x rest ih =>
    obtain ⟨i, v⟩ := x
    obtain ⟨h1, h2⟩ := h
    simp only [List.length_cons, hdPtr, fwdAux, h1]
    exact congrArg _ (ih h2)

/-- A backward walk with fuel equal to the segment length visits exactly the
reversed segment.  Only the `prev` links matter, so the forward exit pointer
`q` is arbitrary. -/
theorem bwdAux_of_chain {f : Nat → Option (DNode α)} {ps : List (Nat × α)}
    {q : Option Nat} (h : chain f none ps q) :
    bwdAux f ps.length (lastPtr ps none) = ps.reverse := by
  induction ps using List.reverseRecOn generalizing q with
  | nil => rfl
  | append_singleton xs x ih =>
    obtain ⟨t, v⟩ := x
    rw [chain_snoc] at h
    obtain ⟨h1, h2⟩ := h
    rw [lastPtr_append]
    simp only [List.length_append, List.length_singleton, lastPtr, bwdAux, h2,
      List.reverse_append, List.reverse_singleton, List.singleton_append]
    exact congrArg _ (ih h1)

/-- The structural invariant of `DoublyLinkedList`, witnessed by the abstract
`(id, value)` sequence `ps` of its live nodes: the nodes form a doubly linked
chain on the heap, `head`/`tail` are its two ends, `size` its length, the ids
are distinct and all below the allocation counter. -/
structure Inv (l : DLL α) (ps : List (Nat × α)) : Prop where
  chain_ok : chain l.nodes none ps none
  head_ok : l.head = hdPtr ps none
  tail_ok : l.tail = lastPtr ps none
  size_ok : l.size = (ps.length : Int)
  nodup : (ps.map Prod.fst).Nodup
  bound : ∀ x ∈ ps, x.1 < l.nextId

theorem Inv.size_toNat {l : DLL α} {ps : List (Nat × α)} (h : Inv l ps) :
    l.size.toNat = ps.length := by
  rw [h.size_ok]; exact Int.toNat_ofNat _

/-- Under the invariant, forward traversal yields exactly the abstract
sequence. -/
theorem Inv.fwdPairs_eq {l : DLL α} {ps : List (Nat × α)} (h : Inv l ps) :
    l.fwdPairs = ps := by
  rw [fwdPairs, h.size_toNat, h.head_ok]
  exact fwdAux_of_chain h.chain_ok

/-- Under the invariant, backward traversal yields exactly the reversed
abstract sequence. -/
theorem Inv.bwdPairs_eq {l : DLL α} {ps : List (Nat × α)} (h : Inv l ps) :
    l.bwdPairs = ps.reverse := by
  rw [bwdPairs, h.size_toNat, h.tail_ok]
  exact bwdAux_of_chain h.chain_ok

theorem hdPtr_of_ne_nil {ps : List (Nat × α)} (h : ps ≠ []) (q r : Option Nat) :
    hdPtr ps q = hdPtr ps r := by
  cases ps with
  | nil => exact absurd rfl h
  | cons x rest => cases x; rfl

/-- Keys stay distinct after splicing in a fresh id. -/
theorem nodup_insert_of_bound {xs ys : List (Nat × α)} {n : Nat}
    (hnd : ((xs ++ ys).map Prod.fst).Nodup)
    (hb : ∀ x ∈ xs ++ ys, x.1 < n) (v : α) :
    ((xs ++ (n, v) :: ys).map Prod.fst).Nodup := by
  rw [List.map_append, List.map_cons, List.nodup_middle, List.nodup_cons]
  rw [List.map_append] at hnd
  refine ⟨?_, hnd⟩
  intro hmem
  rw [← List.map_append, List.mem_map] at hmem
  obtain ⟨x, hx, hx1⟩ := hmem
  have h1 := hb x hx
  have h2 : x.1 = n := hx1
  omega

/-- The empty list satisfies the invariant with the empty sequence. -/
theorem empty_inv : Inv (empty : DLL α) [] where
  chain_ok := trivial
  head_ok := rfl
  tail_ok := rfl
  size_ok := rfl
  nodup := List.nodup_nil
  bound := by intro x hx; cases hx

/-- `append` preserves the invariant: the abstract sequence gains the fresh
node at its end. -/
theorem append_inv {l : DLL α} {ps : List (Nat × α)} (h : Inv l ps) (v : α) :
    Inv (l.append v).1 (ps ++ [(l.nextId, v)]) := by
  rcases List.eq_nil_or_concat ps with rfl | ⟨xs, x, rfl⟩
  · have ht : l.tail = none := h.tail_ok
    have hs : l.size = 0 := h.size_ok
    refine ⟨?_, ?_, ?_, ?_, ?_, ?_⟩
    · simp [append, ht, chain, hdPtr, Function.update]
    · simp [append, ht, hdPtr]
    · simp [append, ht, lastPtr]
    · simp [append, ht, hs]
    · simp
    · intro x hx
      simp only [List.nil_append, List.mem_singleton] at hx
      simp [append, ht, hx]
  · obtain ⟨t, w⟩ := x
    rw [List.concat_eq_append] at h ⊢
    have ht_lt : t < l.nextId := h.bound (t, w) (by simp)
    have hne : t ≠ l.nextId := Nat.ne_of_lt ht_lt
    have ht : l.tail = some t := by rw [h.tail_ok, lastPtr_append]; rfl
    have hchain := h.chain_ok
    rw [chain_snoc] at hchain
    obtain ⟨hxs, hnt⟩ := hchain
    have hxs_lt : ∀ x ∈ xs, x.1 < l.nextId := fun x hx => h.bound x (by simp [hx])
    have hxs_ne_t : ∀ x ∈ xs, x.1 ≠ t := by
      have hnd := h.nodup
      rw [List.map_append] at hnd
      have hdisj := List.disjoint_of_nodup_append hnd
      intro x hx
      have := hdisj (List.mem_map_of_mem Prod.fst hx)
      simpa using this
    simp only [append, ht]
    have hf't : setNext (Function.update l.nodes l.nextId
        (some ⟨v, some t, none⟩)) t (some l.nextId) t =
        some ⟨w, lastPtr xs none, some l.nextId⟩ := by
      simp [setNext, Function.update, hne, hnt]
    have hf'i : setNext (Function.update l.nodes l.nextId
        (some ⟨v, some t, none⟩)) t (some l.nextId) l.nextId =
        some ⟨v, some t, none⟩ := by
      simp [setNext, Function.update, Ne.symm hne]
    have hf'xs : ∀ x ∈ xs, setNext (Function.update l.nodes l.nextId
        (some ⟨v, some t, none⟩)) t (some l.nextId) x.1 = l.nodes x.1 := by
      intro x hx
      simp [setNext, Function.update, hxs_ne_t x hx, Nat.ne_of_lt (hxs_lt x hx)]
    refine ⟨?_, ?_, ?_, ?_, ?_, ?_⟩
    · rw [chain_snoc, chain_snoc]
      dsimp only
      refine ⟨⟨chain_congr (fun x hx => hf'xs x hx) hxs, hf't⟩, ?_⟩
      rw [hf'i, lastPtr_append]
      rfl
    · dsimp only
      rw [h.head_ok]
      cases xs with
      | nil => rfl
      | cons y ys => cases y; rfl
    · dsimp only
      rw [lastPtr_append]
      rfl
    · dsimp only
      have hs := h.size_ok
      simp only [List.length_append, List.length_cons, List.length_nil] at hs ⊢
      omega
    · exact nodup_insert_of_bound (by simpa using h.nodup) (by simpa using h.bound) v
    · intro x hx
      simp only [List.mem_append, List.mem_singleton] at hx
      rcases hx with hx | rfl
      · exact Nat.lt_succ_of_lt (h.bound x (by simp [hx]))
      · exact Nat.lt_succ_self _

/-- `appendleft` preserves the invariant: the abstract sequence gains the
fresh node at its front. -/
theorem appendleft_inv {l : DLL α} {ps : List (Nat × α)} (h : Inv l ps) (v : α) :
    Inv (l.appendleft v).1 ((l.nextId, v) :: ps) := by
  cases ps with
  | nil =>
    have hh : l.head = none := h.head_ok
    have hs : l.size = 0 := h.size_ok
    refine ⟨?_, ?_, ?_, ?_, ?_, ?_⟩
    · simp [appendleft, hh, chain, hdPtr, Function.update]
    · simp [appendleft, hh, hdPtr]
    · simp [appendleft, hh, lastPtr]
    · simp [appendleft, hh, hs]
    · simp
    · intro x hx
      simp only [List.mem_singleton] at hx
      simp [appendleft, hh, hx]
  | cons x rest =>
    obtain ⟨hd, w⟩ := x
    have hhd_lt : hd < l.nextId := h.bound (hd, w) (by simp)
    have hne : hd ≠ l.nextId := Nat.ne_of_lt hhd_lt
    have hh : l.head = some hd := h.head_ok
    obtain ⟨hnhd, hrest⟩ := h.chain_ok
    have hrest_lt : ∀ x ∈ rest, x.1 < l.nextId := fun x hx => h.bound x (by simp [hx])
    have hrest_ne_hd : ∀ x ∈ rest, x.1 ≠ hd := by
      have hnd := h.nodup
      rw [List.map_cons, List.nodup_cons] at hnd
      intro x hx hxeq
      exact hnd.1 (List.mem_map.mpr ⟨x, hx, hxeq⟩)
    simp only [appendleft, hh]
    have hf'hd : setPrev (Function.update l.nodes l.nextId
        (some ⟨v, none, some hd⟩)) hd (some l.nextId) hd =
        some ⟨w, some l.nextId, hdPtr rest none⟩ := by
      simp [setPrev, Function.update, hne, hnhd]
    have hf'i : setPrev (Function.update l.nodes l.nextId
        (some ⟨v, none, some hd⟩)) hd (some l.nextId) l.nextId =
        some ⟨v, none, some hd⟩ := by
      simp [setPrev, Function.update, Ne.symm hne]
    have hf'rest : ∀ x ∈ rest, setPrev (Function.update l.nodes l.nextId
        (some ⟨v, none, some hd⟩)) hd (some l.nextId) x.1 = l.nodes x.1 := by
      intro x hx
      simp [setPrev, Function.update, hrest_ne_hd x hx,
        Nat.ne_of_lt (hrest_lt x hx)]
    refine ⟨?_, ?_, ?_, ?_, ?_, ?_⟩
    · exact ⟨hf'i, hf'hd, chain_congr (fun x hx => hf'rest x hx) hrest⟩
    · rfl
    · exact h.tail_ok
    · dsimp only
      have hs := h.size_ok
      simp only [List.length_cons] at hs ⊢
      omega
    · exact @nodup_insert_of_bound _ [] _ _ h.nodup h.bound v
    · intro x hx
      simp only [List.mem_cons] at hx
      rcases hx with rfl | hx
      · exact Nat.lt_succ_self _
      · exact Nat.lt_succ_of_lt (h.bound x (by simp [hx]))

/-- Key facts extracted from distinctness of the keys around a split. -/
theorem nodup_split_facts {xs ys : List (Nat × α)} {i : Nat} {w : α}
    (hnd : ((xs ++ (i, w) :: ys).map Prod.fst).Nodup) :
    (∀ x ∈ xs, x.1 ≠ i) ∧ (∀ y ∈ ys, y.1 ≠ i) ∧
      (∀ x ∈ xs, ∀ y ∈ ys, x.1 ≠ y.1) := by
  rw [List.map_append, List.map_cons, List.nodup_middle, List.nodup_cons] at hnd
  obtain ⟨hnotin, hnd2⟩ := hnd
  refine ⟨?_, ?_, ?_⟩
  · intro x hx hxi
    exact hnotin (List.mem_append_left _ (List.mem_map.mpr ⟨x, hx, hxi⟩))
  · intro y hy hyi
    exact hnotin (List.mem_append_right _ (List.mem_map.mpr ⟨y, hy, hyi⟩))
  · intro x hx y hy hxy
    exact List.disjoint_of_nodup_append hnd2
      (List.mem_map.mpr ⟨x, hx, rfl⟩) (List.mem_map.mpr ⟨y, hy, hxy.symm⟩)

theorem append_snd (l : DLL α) (v : α) : (l.append v).2 = l.nextId := by
  cases h : l.tail <;> simp [append, h]

theorem appendleft_snd (l : DLL α) (v : α) : (l.appendleft v).2 = l.nextId := by
  cases h : l.head <;> simp [appendleft, h]

theorem insertAfter_snd (l : DLL α) (i : Nat) (v : α) :
    (l.insertAfter i v).2 = l.nextId := by
  cases h : l.nodes i with
  | none => simp [insertAfter, h]
  | some nd => cases h2 : nd.next <;> simp [insertAfter, h, h2]

theorem insertBefore_snd (l : DLL α) (i : Nat) (v : α) :
    (l.insertBefore i v).2 = l.nextId := by
  cases h : l.nodes i with
  | none => simp [insertBefore, h]
  | some nd => cases h2 : nd.prev <;> simp [insertBefore, h, h2]

/-- `insert_after` on a node of the list preserves the invariant: the fresh
node is spliced into the abstract sequence right after its anchor. -/
theorem insertAfter_inv {l : DLL α} {xs ys : List (Nat × α)} {i : Nat} {w : α}
    (h : Inv l (xs ++ (i, w) :: ys)) (v : α) :
    Inv (l.insertAfter i v).1 (xs ++ (i, w) :: (l.nextId, v) :: ys) := by
  have hchain := h.chain_ok
  rw [chain_append] at hchain
  obtain ⟨hxs, hni, hys⟩ := hchain
  have hi_lt : i < l.nextId := h.bound (i, w) (by simp)
  have hi_ne : i ≠ l.nextId := Nat.ne_of_lt hi_lt
  have hxs_lt : ∀ x ∈ xs, x.1 < l.nextId := fun x hx => h.bound x (by simp [hx])
  have hys_lt : ∀ y ∈ ys, y.1 < l.nextId := fun y hy => h.bound y (by simp [hy])
  obtain ⟨hxs_ne_i, hys_ne_i, hxs_ne_ys⟩ := nodup_split_facts h.nodup
  cases ys with
  | nil =>
    have hni2 : l.nodes i = some ⟨w, lastPtr xs none, none⟩ := hni
    simp only [insertAfter, hni2]
    have hf'i : setNext (Function.update l.nodes l.nextId
        (some ⟨v, some i, none⟩)) i (some l.nextId) i =
        some ⟨w, lastPtr xs none, some l.nextId⟩ := by
      simp [setNext, Function.update, hi_ne, hni2]
    have hf'j : setNext (Function.update l.nodes l.nextId
        (some ⟨v, some i, none⟩)) i (some l.nextId) l.nextId =
        some ⟨v, some i, none⟩ := by
      simp [setNext, Function.update, Ne.symm hi_ne]
    have hf'xs : ∀ x ∈ xs, setNext (Function.update l.nodes l.nextId
        (some ⟨v, some i, none⟩)) i (some l.nextId) x.1 = l.nodes x.1 := by
      intro x hx
      simp [setNext, Function.update, hxs_ne_i x hx, Nat.ne_of_lt (hxs_lt x hx)]
    refine ⟨?_, ?_, ?_, ?_, ?_, ?_⟩
    · rw [chain_append]
      exact ⟨chain_congr (fun x hx => hf'xs x hx) hxs, hf'i, hf'j, trivial⟩
    · dsimp only
      rw [h.head_ok]
      cases xs with
      | nil => rfl
      | cons y t => cases y; rfl
    · dsimp only
      rw [lastPtr_append]
      rfl
    · dsimp only
      have hs := h.size_ok
      simp only [List.length_append, List.length_cons, List.length_nil] at hs ⊢
      omega
    · have hlst : xs ++ (i, w) :: (l.nextId, v) :: ([] : List (Nat × α)) =
          (xs ++ [(i, w)]) ++ (l.nextId, v) :: [] := by simp
      rw [hlst]
      exact nodup_insert_of_bound (by simpa using h.nodup) (by simpa using h.bound) v
    · intro x hx
      simp only [List.mem_append, List.mem_cons, List.not_mem_nil, or_false] at hx
      rcases hx with hx | rfl | rfl
      · exact Nat.lt_succ_of_lt (hxs_lt x hx)
      · exact Nat.lt_succ_of_lt hi_lt
      · exact Nat.lt_succ_self _
  | cons y ys2 =>
    obtain ⟨nx, u⟩ := y
    obtain ⟨hnnx, hys2⟩ := hys
    have hnx_lt : nx < l.nextId := hys_lt (nx, u) (by simp)
    have hnx_ne : nx ≠ l.nextId := Nat.ne_of_lt hnx_lt
    have hnx_ne_i : nx ≠ i := hys_ne_i (nx, u) (by simp)
    have hni2 : l.nodes i = some ⟨w, lastPtr xs none, some nx⟩ := hni
    simp only [insertAfter, hni2]
    have hys2_lt : ∀ y ∈ ys2, y.1 < l.nextId := fun y hy => hys_lt y (by simp [hy])
    have hys2_ne_i : ∀ y ∈ ys2, y.1 ≠ i := fun y hy => hys_ne_i y (by simp [hy])
    have hys2_ne_nx : ∀ y ∈ ys2, y.1 ≠ nx := by
      have hnd := h.nodup
      rw [List.map_append, List.map_cons, List.nodup_middle, List.nodup_cons] at hnd
      have := hnd.2
      rw [← List.map_append] at this
      have hmid := @nodup_split_facts α xs ys2 nx u (by
        rw [List.map_append, List.map_cons]
        simpa using this)
      exact fun y hy => (hmid.2.1 y hy)
    have hf'i : setNext (setPrev (Function.update l.nodes l.nextId
        (some ⟨v, some i, some nx⟩)) nx (some l.nextId)) i (some l.nextId) i =
        some ⟨w, lastPtr xs none, some l.nextId⟩ := by
      simp [setNext, setPrev, Function.update, hi_ne, Ne.symm hnx_ne_i, hni2]
    have hf'j : setNext (setPrev (Function.update l.nodes l.nextId
        (some ⟨v, some i, some nx⟩)) nx (some l.nextId)) i (some l.nextId) l.nextId =
        some ⟨v, some i, some nx⟩ := by
      simp [setNext, setPrev, Function.update, Ne.symm hi_ne, Ne.symm hnx_ne]
    have hf'nx : setNext (setPrev (Function.update l.nodes l.nextId
        (some ⟨v, some i, some nx⟩)) nx (some l.nextId)) i (some l.nextId) nx =
        some ⟨u, some l.nextId, hdPtr ys2 none⟩ := by
      simp [setNext, setPrev, Function.update, hnx_ne_i, hnx_ne, hnnx]
    have hf'other : ∀ k, k ≠ i → k ≠ nx → k ≠ l.nextId →
        setNext (setPrev (Function.update l.nodes l.nextId
        (some ⟨v, some i, some nx⟩)) nx (some l.nextId)) i (some l.nextId) k =
        l.nodes k := by
      intro k hk1 hk2 hk3
      simp [setNext, setPrev, Function.update, hk1, hk2, hk3]
    refine ⟨?_, ?_, ?_, ?_, ?_, ?_⟩
    · rw [chain_append]
      refine ⟨chain_congr (fun x hx => hf'other x.1 (hxs_ne_i x hx)
          (hxs_ne_ys x hx (nx, u) (by simp)) (Nat.ne_of_lt (hxs_lt x hx))) hxs,
        hf'i, hf'j, hf'nx, ?_⟩
      exact chain_congr (fun y hy => hf'other y.1 (hys2_ne_i y hy)
        (hys2_ne_nx y hy) (Nat.ne_of_lt (hys2_lt y hy))) hys2
    · dsimp only
      rw [h.head_ok]
      cases xs with
      | nil => rfl
      | cons z t => cases z; rfl
    · dsimp only
      rw [h.tail_ok, lastPtr_append, lastPtr_append]
      rfl
    · dsimp only
      have hs := h.size_ok
      simp only [List.length_append, List.length_cons] at hs ⊢
      omega
    · have hlst : xs ++ (i, w) :: (l.nextId, v) :: (nx, u) :: ys2 =
          (xs ++ [(i, w)]) ++ (l.nextId, v) :: (nx, u) :: ys2 := by simp
      rw [hlst]
      exact nodup_insert_of_bound (by simpa using h.nodup) (by simpa using h.bound) v
    · intro x hx
      simp only [List.mem_append, List.mem_cons] at hx
      rcases hx with hx | rfl | rfl | rfl | hx
      · exact Nat.lt_succ_of_lt (hxs_lt x hx)
      · exact Nat.lt_succ_of_lt hi_lt
      · exact Nat.lt_succ_self _
      · exact Nat.lt_succ_of_lt hnx_lt
      · exact Nat.lt_succ_of_lt (hys2_lt x (by simp [hx]))

/-- `insert_before` on a node of the list preserves the invariant: the fresh
node is spliced into the abstract sequence right before its anchor. -/
theorem insertBefore_inv {l : DLL α} {xs ys : List (Nat × α)} {i : Nat} {w : α}
    (h : Inv l (xs ++ (i, w) :: ys)) (v : α) :
    Inv (l.insertBefore i v).1 (xs ++ (l.nextId, v) :: (i, w) :: ys) := by
  have hchain := h.chain_ok
  rw [chain_append] at hchain
  obtain ⟨hxs, hni, hys⟩ := hchain
  have hi_lt : i < l.nextId := h.bound (i, w) (by simp)
  have hi_ne : i ≠ l.nextId := Nat.ne_of_lt hi_lt
  have hxs_lt : ∀ x ∈ xs, x.1 < l.nextId := fun x hx => h.bound x (by simp [hx])
  have hys_lt : ∀ y ∈ ys, y.1 < l.nextId := fun y hy => h.bound y (by simp [hy])
  obtain ⟨hxs_ne_i, hys_ne_i, hxs_ne_ys⟩ := nodup_split_facts h.nodup
  rcases List.eq_nil_or_concat xs with rfl | ⟨xs2, z, rfl⟩
  · have hni2 : l.nodes i = some ⟨w, none, hdPtr ys none⟩ := hni
    simp only [insertBefore, hni2]
    have hf'j : setPrev (Function.update l.nodes l.nextId
        (some ⟨v, none, some i⟩)) i (some l.nextId) l.nextId =
        some ⟨v, none, some i⟩ := by
      simp [setPrev, Function.update, Ne.symm hi_ne]
    have hf'i : setPrev (Function.update l.nodes l.nextId
        (some ⟨v, none, some i⟩)) i (some l.nextId) i =
        some ⟨w, some l.nextId, hdPtr ys none⟩ := by
      simp [setPrev, Function.update, hi_ne, hni2]
    have hf'ys : ∀ y ∈ ys, setPrev (Function.update l.nodes l.nextId
        (some ⟨v, none, some i⟩)) i (some l.nextId) y.1 = l.nodes y.1 := by
      intro y hy
      simp [setPrev, Function.update, hys_ne_i y hy, Nat.ne_of_lt (hys_lt y hy)]
    refine ⟨?_, ?_, ?_, ?_, ?_, ?_⟩
    · exact ⟨hf'j, hf'i, chain_congr (fun y hy => hf'ys y hy) hys⟩
    · rfl
    · exact h.tail_ok
    · dsimp only
      have hs := h.size_ok
      simp only [List.length_append, List.length_cons, List.length_nil] at hs ⊢
      omega
    · exact @nodup_insert_of_bound _ [] _ _ (by simpa using h.nodup)
        (by simpa using h.bound) v
    · intro x hx
      simp only [List.nil_append, List.mem_cons] at hx
      rcases hx with rfl | rfl | hx
      · exact Nat.lt_succ_self _
      · exact Nat.lt_succ_of_lt hi_lt
      · exact Nat.lt_succ_of_lt (h.bound x (by simp [hx]))
  · obtain ⟨p, pw⟩ := z
    rw [List.concat_eq_append] at h hxs hni hxs_lt hxs_ne_i hxs_ne_ys ⊢
    rw [chain_snoc] at hxs
    obtain ⟨hxs2, hnp⟩ := hxs
    have hp_lt : p < l.nextId := hxs_lt (p, pw) (by simp)
    have hp_ne : p ≠ l.nextId := Nat.ne_of_lt hp_lt
    have hp_ne_i : p ≠ i := hxs_ne_i (p, pw) (by simp)
    have hni2 : l.nodes i = some ⟨w, some p, hdPtr ys none⟩ := by
      rw [hni, lastPtr_append]
      rfl
    simp only [insertBefore, hni2]
    have hxs2_lt : ∀ x ∈ xs2, x.1 < l.nextId := fun x hx => hxs_lt x (by simp [hx])
    have hxs2_ne_i : ∀ x ∈ xs2, x.1 ≠ i := fun x hx => hxs_ne_i x (by simp [hx])
    have hxs2_ne_p : ∀ x ∈ xs2, x.1 ≠ p := by
      have hnd : ((xs2 ++ (p, pw) :: []).map Prod.fst).Nodup := by
        have := h.nodup
        rw [List.map_append] at this
        have hxsnd := (List.nodup_append.mp this).1
        simpa using hxsnd
      exact fun x hx => (nodup_split_facts hnd).1 x hx
    have hf'j : setPrev (setNext (Function.update l.nodes l.nextId
        (some ⟨v, some p, some i⟩)) p (some l.nextId)) i (some l.nextId) l.nextId =
        some ⟨v, some p, some i⟩ := by
      simp [setPrev, setNext, Function.update, Ne.symm hi_ne, Ne.symm hp_ne]
    have hf'i : setPrev (setNext (Function.update l.nodes l.nextId
        (some ⟨v, some p, some i⟩)) p (some l.nextId)) i (some l.nextId) i =
        some ⟨w, some l.nextId, hdPtr ys none⟩ := by
      simp [setPrev, setNext, Function.update, hi_ne, Ne.symm hp_ne_i, hni2]
    have hf'p : setPrev (setNext (Function.update l.nodes l.nextId
        (some ⟨v, some p, some i⟩)) p (some l.nextId)) i (some l.nextId) p =
        some ⟨pw, lastPtr xs2 none, some l.nextId⟩ := by
      simp [setPrev, setNext, Function.update, hp_ne_i, hp_ne, hnp]
    have hf'other : ∀ k, k ≠ i → k ≠ p → k ≠ l.nextId →
        setPrev (setNext (Function.update l.nodes l.nextId
        (some ⟨v, some p, some i⟩)) p (some l.nextId)) i (some l.nextId) k =
        l.nodes k := by
      intro k hk1 hk2 hk3
      simp [setPrev, setNext, Function.update, hk1, hk2, hk3]
    refine ⟨?_, ?_, ?_, ?_, ?_, ?_⟩
    · rw [chain_append, chain_snoc]
      refine ⟨⟨chain_congr (fun x hx => hf'other x.1 (hxs2_ne_i x hx)
          (hxs2_ne_p x hx) (Nat.ne_of_lt (hxs2_lt x hx))) hxs2, hf'p⟩,
        ?_, ?_, ?_⟩
      · dsimp only
        rw [hf'j, lastPtr_append]
        rfl
      · exact hf'i
      · exact chain_congr (fun y hy => hf'other y.1 (hys_ne_i y hy)
          (Ne.symm (hxs_ne_ys (p, pw) (by simp) y hy))
          (Nat.ne_of_lt (hys_lt y hy))) hys
    · dsimp only
      rw [h.head_ok]
      cases xs2 with
      | nil => rfl
      | cons z t => cases z; rfl
    · have heq : lastPtr ((xs2 ++ [(p, pw)]) ++ (l.nextId, v) :: (i, w) :: ys) none =
          lastPtr ((xs2 ++ [(p, pw)]) ++ (i, w) :: ys) none := by
        simp only [lastPtr_append]
        rfl
      dsimp only
      rw [h.tail_ok, heq]
    · dsimp only
      have hs := h.size_ok
      simp only [List.length_append, List.length_cons] at hs ⊢
      omega
    · exact nodup_insert_of_bound (by simpa using h.nodup) (by simpa using h.bound) v
    · intro x hx
      simp only [List.mem_append, List.mem_cons, List.not_mem_nil, or_false] at hx
      rcases hx with (hx | rfl) | rfl | rfl | hx
      · exact Nat.lt_succ_of_lt (hxs2_lt x hx)
      · exact Nat.lt_succ_of_lt hp_lt
      · exact Nat.lt_succ_self _
      · exact Nat.lt_succ_of_lt hi_lt
      · exact Nat.lt_succ_of_lt (hys_lt x hx)

/-- `remove_node` on a node of the list preserves the invariant: the node is
deleted from the abstract sequence. -/
theorem removeNode_inv {l : DLL α} {xs ys : List (Nat × α)} {i : Nat} {w : α}
    (h : Inv l (xs ++ (i, w) :: ys)) :
    Inv (l.removeNode i) (xs ++ ys) := by
  have hchain := h.chain_ok
  rw [chain_append] at hchain
  obtain ⟨hxs, hni, hys⟩ := hchain
  have hi_lt : i < l.nextId := h.bound (i, w) (by simp)
  have hxs_lt : ∀ x ∈ xs, x.1 < l.nextId := fun x hx => h.bound x (by simp [hx])
  have hys_lt : ∀ y ∈ ys, y.1 < l.nextId := fun y hy => h.bound y (by simp [hy])
  obtain ⟨hxs_ne_i, hys_ne_i, hxs_ne_ys⟩ := nodup_split_facts h.nodup
  have hnodup2 : ((xs ++ ys).map Prod.fst).Nodup :=
    List.Nodup.sublist (List.Sublist.map Prod.fst
      ((List.sublist_cons_self (i, w) ys).append_left xs)) h.nodup
  have hbound2 : ∀ x ∈ xs ++ ys, x.1 < l.nextId := by
    intro x hx
    rcases List.mem_append.mp hx with hx | hx
    · exact hxs_lt x hx
    · exact hys_lt x hx
  have hsize2 : l.size - 1 = ((xs ++ ys).length : Int) := by
    have hs := h.size_ok
    simp only [List.length_append, List.length_cons] at hs ⊢
    omega
  rcases List.eq_nil_or_concat xs with rfl | ⟨xs2, z, rfl⟩
  · cases ys with
    | nil =>
      have hni2 : l.nodes i = some ⟨w, none, none⟩ := hni
      simp only [removeNode, hni2]
      exact ⟨trivial, rfl, rfl, hsize2, hnodup2, hbound2⟩
    | cons y ys2 =>
      obtain ⟨nx, u⟩ := y
      obtain ⟨hnnx, hys2⟩ := hys
      have hnx_ne_i : nx ≠ i := hys_ne_i (nx, u) (by simp)
      have hni2 : l.nodes i = some ⟨w, none, some nx⟩ := hni
      simp only [removeNode, hni2]
      have hys2_ne_i : ∀ y ∈ ys2, y.1 ≠ i := fun y hy => hys_ne_i y (by simp [hy])
      have hys2_ne_nx : ∀ y ∈ ys2, y.1 ≠ nx := by
        have hnd : ((([] : List (Nat × α)) ++ (nx, u) :: ys2).map Prod.fst).Nodup := by
          simpa using hnodup2
        exact fun y hy => (nodup_split_facts hnd).2.1 y hy
      have hf'nx : Function.update (setPrev l.nodes nx none) i
          (some ⟨w, none, none⟩) nx = some ⟨u, none, hdPtr ys2 none⟩ := by
        simp [setPrev, Function.update, hnx_ne_i, hnnx]
      have hf'other : ∀ k, k ≠ i → k ≠ nx →
          Function.update (setPrev l.nodes nx none) i
          (some ⟨w, none, none⟩) k = l.nodes k := by
        intro k hk1 hk2
        simp [setPrev, Function.update, hk1, hk2]
      refine ⟨?_, rfl, ?_, hsize2, hnodup2, hbound2⟩
      · exact ⟨hf'nx, chain_congr (fun y hy => hf'other y.1 (hys2_ne_i y hy)
          (hys2_ne_nx y hy)) hys2⟩
      · exact h.tail_ok
  · obtain ⟨p, pw⟩ := z
    simp only [List.concat_eq_append] at h hxs hni hxs_lt hxs_ne_i hxs_ne_ys hnodup2 hbound2 hsize2 ⊢
    rw [chain_snoc] at hxs
    obtain ⟨hxs2, hnp⟩ := hxs
    have hp_ne_i : p ≠ i := hxs_ne_i (p, pw) (by simp)
    have hxs2_ne_i : ∀ x ∈ xs2, x.1 ≠ i := fun x hx => hxs_ne_i x (by simp [hx])
    have hxs2_ne_p : ∀ x ∈ xs2, x.1 ≠ p := by
      have hnd : ((xs2 ++ (p, pw) :: []).map Prod.fst).Nodup := by
        have := h.nodup
        rw [List.map_append] at this
        simpa using (List.nodup_append.mp this).1
      exact fun x hx => (nodup_split_facts hnd).1 x hx
    cases ys with
    | nil =>
      have hni2 : l.nodes i = some ⟨w, some p, none⟩ := by
        rw [hni, lastPtr_append]
        rfl
      simp only [removeNode, hni2]
      have hf'p : Function.update (setNext l.nodes p none) i
          (some ⟨w, none, none⟩) p = some ⟨pw, lastPtr xs2 none, none⟩ := by
        simp [setNext, Function.update, hp_ne_i, hnp]
      have hf'other : ∀ k, k ≠ i → k ≠ p →
          Function.update (setNext l.nodes p none) i
          (some ⟨w, none, none⟩) k = l.nodes k := by
        intro k hk1 hk2
        simp [setNext, Function.update, hk1, hk2]
      refine ⟨?_, ?_, ?_, hsize2, hnodup2, hbound2⟩
      · rw [List.append_nil, chain_snoc]
        exact ⟨chain_congr (fun x hx => hf'other x.1 (hxs2_ne_i x hx)
          (hxs2_ne_p x hx)) hxs2, hf'p⟩
      · dsimp only
        rw [h.head_ok]
        cases xs2 with
        | nil => rfl
        | cons z t => cases z; rfl
      · dsimp only
        rw [List.append_nil, lastPtr_append]
        rfl
    | cons y ys2 =>
      obtain ⟨nx, u⟩ := y
      obtain ⟨hnnx, hys2⟩ := hys
      have hnx_ne_i : nx ≠ i := hys_ne_i (nx, u) (by simp)
      have hp_ne_nx : p ≠ nx := hxs_ne_ys (p, pw) (by simp) (nx, u) (by simp)
      have hni2 : l.nodes i = some ⟨w, some p, some nx⟩ := by
        rw [hni, lastPtr_append]
        rfl
      simp only [removeNode, hni2]
      have hys2_ne_i : ∀ y ∈ ys2, y.1 ≠ i := fun y hy => hys_ne_i y (by simp [hy])
      have hys2_ne_nx : ∀ y ∈ ys2, y.1 ≠ nx := by
        have hnd : ((xs2 ++ (p, pw) :: []) ++ (nx, u) :: ys2).map Prod.fst
            |>.Nodup := hnodup2
        exact fun y hy => ((nodup_split_facts
          (by simpa using hnd : ((((xs2 ++ [(p, pw)]) : List (Nat × α))
            ++ (nx, u) :: ys2).map Prod.fst).Nodup)).2.1) y hy
      have hys2_ne_p : ∀ y ∈ ys2, y.1 ≠ p :=
        fun y hy => Ne.symm (hxs_ne_ys (p, pw) (by simp) y (by simp [hy]))
      have hxs2_ne_nx : ∀ x ∈ xs2, x.1 ≠ nx :=
        fun x hx => hxs_ne_ys x (by simp [hx]) (nx, u) (by simp)
      have hf'p : Function.update (setPrev (setNext l.nodes p (some nx)) nx
          (some p)) i (some ⟨w, none, none⟩) p =
          some ⟨pw, lastPtr xs2 none, some nx⟩ := by
        simp [setPrev, setNext, Function.update, hp_ne_i, hp_ne_nx, hnp]
      have hf'nx : Function.update (setPrev (setNext l.nodes p (some nx)) nx
          (some p)) i (some ⟨w, none, none⟩) nx =
          some ⟨u, some p, hdPtr ys2 none⟩ := by
        simp [setPrev, setNext, Function.update, hnx_ne_i, Ne.symm hp_ne_nx, hnnx]
      have hf'other : ∀ k, k ≠ i → k ≠ p → k ≠ nx →
          Function.update (setPrev (setNext l.nodes p (some nx)) nx
          (some p)) i (some ⟨w, none, none⟩) k = l.nodes k := by
        intro k hk1 hk2 hk3
        simp [setPrev, setNext, Function.update, hk1, hk2, hk3]
      refine ⟨?_, ?_, ?_, hsize2, hnodup2, hbound2⟩
      · rw [chain_append, chain_snoc]
        dsimp only
        refine ⟨⟨chain_congr (fun x hx => hf'other x.1 (hxs2_ne_i x hx)
            (hxs2_ne_p x hx) (hxs2_ne_nx x hx)) hxs2, ?_⟩, ?_, ?_⟩
        · rw [hf'p]
          rfl
        · rw [hf'nx, lastPtr_append]
          rfl
        · exact chain_congr (fun y hy => hf'other y.1 (hys2_ne_i y hy)
            (hys2_ne_p y hy) (hys2_ne_nx y hy)) hys2
      · dsimp only
        rw [h.head_ok]
        cases xs2 with
        | nil => rfl
        | cons z t => cases z; rfl
      · have heq : lastPtr ((xs2 ++ [(p, pw)]) ++ (nx, u) :: ys2) none =
            lastPtr ((xs2 ++ [(p, pw)]) ++ (i, w) :: (nx, u) :: ys2) none := by
          simp only [lastPtr_append]
          rfl
        dsimp only
        rw [h.tail_ok, ← heq]

/-- `pop` on an empty list raises `IndexError` and touches nothing. -/
theorem pop_empty {l : DLL α} (h : Inv l []) :
    l.pop = Except.error "pop from empty list" := by
  have ht : l.tail = none := h.tail_ok
  simp [pop, ht]

/-- `popleft` on an empty list raises `IndexError` and touches nothing. -/
theorem popleft_empty {l : DLL α} (h : Inv l []) :
    l.popleft = Except.error "popleft from empty list" := by
  have hh : l.head = none := h.head_ok
  simp [popleft, hh]

/-- `pop` on a non-empty list returns the tail value and removes the tail
node, preserving the invariant. -/
theorem pop_inv {l : DLL α} {xs : List (Nat × α)} {t : Nat} {w : α}
    (h : Inv l (xs ++ [(t, w)])) :
    l.pop = Except.ok (w, l.removeNode t) ∧ Inv (l.removeNode t) xs := by
  have ht : l.tail = some t := by rw [h.tail_ok, lastPtr_append]; rfl
  have hchain := h.chain_ok
  rw [chain_snoc] at hchain
  obtain ⟨hxs, hnt⟩ := hchain
  refine ⟨by simp [pop, ht, hnt], ?_⟩
  have h2 : Inv l (xs ++ (t, w) :: []) := h
  simpa using removeNode_inv h2

/-- `popleft` on a non-empty list returns the head value and removes the
head node, preserving the invariant. -/
theorem popleft_inv {l : DLL α} {rest : List (Nat × α)} {hd : Nat} {w : α}
    (h : Inv l ((hd, w) :: rest)) :
    l.popleft = Except.ok (w, l.removeNode hd) ∧ Inv (l.removeNode hd) rest := by
  have hh : l.head = some hd := h.head_ok
  obtain ⟨hnhd, _⟩ := h.chain_ok
  refine ⟨by simp [popleft, hh, hnhd], ?_⟩
  have h2 : Inv l (([] : List (Nat × α)) ++ (hd, w) :: rest) := h
  simpa using removeNode_inv h2

/-- A node id found by forward traversal splits the abstract sequence. -/
theorem Inv.exists_split {l : DLL α} {ps : List (Nat × α)} (h : Inv l ps)
    {i : Nat} (hm : i ∈ l.fwdNodes) :
    ∃ xs w ys, ps = xs ++ (i, w) :: ys := by
  rw [fwdNodes, h.fwdPairs_eq] at hm
  obtain ⟨a, ha, hai⟩ := List.mem_map.mp hm
  obtain ⟨xs, ys, rfl⟩ := List.append_of_mem ha
  exact ⟨xs, a.2, ys, by rw [← hai, Prod.mk.eta]⟩

/-- One step of the operation language of the claim: every public mutating
operation of `DoublyLinkedList`, with node arguments given by id. -/
inductive Op (α : Type) where
  | appendOp (v : α)
  | appendleftOp (v : α)
  | popOp
  | popleftOp
  | insertAfterOp (i : Nat) (v : α)
  | insertBeforeOp (i : Nat) (v : α)
  | removeNodeOp (i : Nat)

/-- Apply one operation.  A failing `pop`/`popleft` raises before mutating
anything, so the list is returned unchanged. -/
def applyOp (l : DLL α) : Op α → DLL α
  | .appendOp v => (l.append v).1
  | .appendleftOp v => (l.appendleft v).1
  | .popOp => match l.pop with | .ok x => x.2 | .error _ => l
  | .popleftOp => match l.popleft with | .ok x => x.2 | .error _ => l
  | .insertAfterOp i v => (l.insertAfter i v).1
  | .insertBeforeOp i v => (l.insertBefore i v).1
  | .removeNodeOp i => l.removeNode i

/-- The precondition of the claim: `insert_after`/`insert_before`/
`remove_node` are applied to a node currently belonging to the list. -/
def opOK (l : DLL α) : Op α → Bool
  | .insertAfterOp i _ => l.fwdNodes.contains i
  | .insertBeforeOp i _ => l.fwdNodes.contains i
  | .removeNodeOp i => l.fwdNodes.contains i
  | _ => true

/-- Every insert/remove in the sequence targets a node that belongs to the
list at the moment the operation runs. -/
def validSeq (l : DLL α) : List (Op α) → Bool
  | [] => true
  | op :: rest => opOK l op && validSeq (applyOp l op) rest

/-- Run a sequence of operations. -/
def runOps (l : DLL α) (ops : List (Op α)) : DLL α := ops.foldl applyOp l

/-- Any permitted operation preserves the structural invariant. -/
theorem applyOp_inv {l : DLL α} {ps : List (Nat × α)} (h : Inv l ps)
    {op : Op α} (hok : opOK l op = true) :
    ∃ ps2, Inv (applyOp l op) ps2 := by
  cases op with
  | appendOp v => exact ⟨_, append_inv h v⟩
  | appendleftOp v => exact ⟨_, appendleft_inv h v⟩
  | popOp =>
    rcases List.eq_nil_or_concat ps with rfl | ⟨xs, x, rfl⟩
    · refine ⟨[], ?_⟩
      have he := pop_empty h
      simpa [applyOp, he] using h
    · obtain ⟨t, w⟩ := x
      rw [List.concat_eq_append] at h
      obtain ⟨hpop, hinv⟩ := pop_inv h
      refine ⟨xs, ?_⟩
      simpa [applyOp, hpop] using hinv
  | popleftOp =>
    cases ps with
    | nil =>
      refine ⟨[], ?_⟩
      have he := popleft_empty h
      simpa [applyOp, he] using h
    | cons x rest =>
      obtain ⟨hd, w⟩ := x
      obtain ⟨hpop, hinv⟩ := popleft_inv h
      refine ⟨rest, ?_⟩
      simpa [applyOp, hpop] using hinv
  | insertAfterOp i v =>
    have hm : i ∈ l.fwdNodes := by simpa [opOK] using hok
    obtain ⟨xs, w, ys, rfl⟩ := h.exists_split hm
    exact ⟨_, insertAfter_inv h v⟩
  | insertBeforeOp i v =>
    have hm : i ∈ l.fwdNodes := by simpa [opOK] using hok
    obtain ⟨xs, w, ys, rfl⟩ := h.exists_split hm
    exact ⟨_, insertBefore_inv h v⟩
  | removeNodeOp i =>
    have hm : i ∈ l.fwdNodes := by simpa [opOK] using hok
    obtain ⟨xs, w, ys, rfl⟩ := h.exists_split hm
    exact ⟨_, removeNode_inv h⟩

/-- Any valid sequence of operations preserves the structural invariant. -/
theorem runOps_inv {ops : List (Op α)} :
    ∀ {l : DLL α} {ps : List (Nat × α)}, Inv l ps → validSeq l ops = true →
      ∃ ps2, Inv (runOps l ops) ps2 := by
  induction ops with
  | nil => exact fun h _ => ⟨_, h⟩
  | cons op rest ih =>
    intro l ps h hv
    rw [validSeq, Bool.and_eq_true] at hv
    obtain ⟨ps2, h2⟩ := applyOp_inv h hv.1
    exact ih h2 hv.2

theorem lastPtr_isSome (ps : List (Nat × α)) (j : Nat) :
    (lastPtr ps (some j)).isSome := by
  induction ps generalizing j with
  | nil => rfl
  | cons x rest ih => cases x; exact ih _

theorem lastPtr_eq_getLast (ps : List (Nat × α)) :
    lastPtr ps none = (ps.map Prod.fst).getLast? := by
  induction ps using List.reverseRecOn with
  | nil => rfl
  | append_singleton xs x ih =>
    obtain ⟨t, w⟩ := x
    rw [lastPtr_append, List.map_append]
    simp only [List.map_cons, List.map_nil, List.getLast?_concat]
    rfl

/-- All the observable structural properties that follow from the
invariant: the emptiness equivalences, the agreement of the two traversals,
and the agreement of `length` with both traversals. -/
theorem Inv.props {l : DLL α} {ps : List (Nat × α)} (h : Inv l ps) :
    (l.size = 0 ↔ l.head = none) ∧ (l.head = none ↔ l.tail = none) ∧
      l.toListRev = l.toList.reverse ∧ l.bwdNodes = l.fwdNodes.reverse ∧
      l.fwdNodes.head? = l.head ∧ l.fwdNodes.getLast? = l.tail ∧
      l.length = (l.toList.length : Int) ∧
      l.length = (l.toListRev.length : Int) ∧
      l.size = (l.fwdNodes.length : Int) := by
  have hfwd : l.fwdPairs = ps := h.fwdPairs_eq
  have hbwd : l.bwdPairs = ps.reverse := h.bwdPairs_eq
  refine ⟨?_, ?_, ?_, ?_, ?_, ?_, ?_, ?_, ?_⟩
  · rw [h.size_ok, h.head_ok]
    cases ps with
    | nil => simp [hdPtr]
    | cons x rest =>
      cases x
      simp [hdPtr]
      omega
  · rw [h.head_ok, h.tail_ok]
    cases ps with
    | nil => simp [hdPtr, lastPtr]
    | cons x rest =>
      obtain ⟨j, v⟩ := x
      simp only [hdPtr, lastPtr]
      have := lastPtr_isSome rest j
      constructor
      · intro hc; cases hc
      · intro hc
        rw [hc] at this
        cases this
  · rw [toListRev, toList, hfwd, hbwd, List.map_reverse]
  · rw [bwdNodes, fwdNodes, hfwd, hbwd, List.map_reverse]
  · rw [fwdNodes, hfwd, h.head_ok]
    cases ps with
    | nil => rfl
    | cons x rest => cases x; rfl
  · rw [fwdNodes, hfwd, h.tail_ok, lastPtr_eq_getLast]
  · rw [length, toList, hfwd, h.size_ok, List.length_map]
  · rw [length, toListRev, hbwd, h.size_ok, List.length_map,
      List.length_reverse]
  · rw [fwdNodes, hfwd, h.size_ok, List.length_map]

end DLL

/-! ## The pattern registry (`base/pattern.py`)

`BasePattern.__init_subclass__` validates the `name` class attribute of every
subclass being defined and registers the subclass in `Registry._register`;
`Registry` also lazily caches one instance per name in `Registry._instances`.
Python exceptions are modelled as explicit error values; operations that can
mutate return the state as it stands when the operation finishes or raises. -/

/-- A Python value sitting in the `name` class attribute: `None`, a string,
or a value of any other type (`isinstance(name, str)` is false). -/
inductive PyVal where
  | pynone
  | pystr (s : String)
  | pyother
  deriving DecidableEq, Repr

/-- Keyword arguments forwarded to a pattern constructor, modelled as
key-value pairs. -/
abbrev Config := List (String × Int)

/-- A subclass of `BasePattern` as declared by a variant module: its `name`
class attribute, its `__name__`, whether it overrides the abstract method
`on_pivot`, and whether its `__init__` raises. -/
structure PatternClass where
  pyName : PyVal
  clsName : String
  implementsOnPivot : Bool
  initRaises : Bool
  deriving DecidableEq, Repr

/-- A constructed pattern object, recording the class it was built from and
the keyword arguments its constructor received. -/
structure PatternInstance where
  cls : String
  cfg : Config
  deriving DecidableEq, Repr

/-- The Python exceptions raised by `pattern.py`, by raise site:
the two `ValueError`s of `__init_subclass__`, the `ValueError` of
`Registry.register`, the `KeyError` of dict lookups, the `TypeError` from
instantiating an ABC whose abstract method is not overridden, and an error
raised by a variant's own `__init__`. -/
inductive PyErr where
  | valueErrorNameRequired (cls : String)
  | valueErrorNameInvalid (cls : String)
  | valueErrorDuplicate (current existing : String)
  | keyError (name : String)
  | typeErrorAbstract (cls : String)
  | initError (cls : String)
  deriving DecidableEq, Repr

/-- `key in d` for a Python dict with string keys (insertion-ordered
association list). -/
def dictMem (d : List (String × β)) (k : String) : Bool :=
  d.any (fun p => p.1 == k)

/-- `d[key]` as an optional lookup. -/
def dictGet (d : List (String × β)) (k : String) : Option β :=
  (d.find? (fun p => p.1 == k)).map Prod.snd

/-- `d[key] = v`: replace in place when the key exists, else append. -/
def dictInsert (d : List (String × β)) (k : String) (v : β) :
    List (String × β) :=
  if dictMem d k then d.map (fun p => if p.1 == k then (k, v) else p)
  else d ++ [(k, v)]

theorem dictMem_eq_isSome (d : List (String × β)) (k : String) :
    dictMem d k = (dictGet d k).isSome := by
  induction d with
  | nil => rfl
  | cons p d ih =>
    cases hb : (p.1 == k) with
    | true => simp [dictMem, dictGet, List.find?, hb]
    | false =>
      simpa [dictMem, dictGet, List.find?, hb] using ih

theorem dictGet_map_insert (k : String) (v : β) :
    ∀ d : List (String × β), dictMem d k = true →
      dictGet (d.map (fun p => if (p.1 == k) = true then (k, v) else p)) k =
        some v := by
  intro d
  induction d with
  | nil => intro hm; simp [dictMem] at hm
  | cons p d ih =>
    intro hm
    cases hb : (p.1 == k) with
    | true => simp [dictGet, List.find?, hb]
    | false =>
      have hm2 : dictMem d k = true := by simpa [dictMem, hb] using hm
      simpa [dictGet, List.find?, hb] using ih hm2

theorem dictGet_append_insert (k : String) (v : β) :
    ∀ d : List (String × β), dictMem d k = false →
      dictGet (d ++ [(k, v)]) k = some v := by
  intro d
  induction d with
  | nil => simp [dictGet, List.find?]
  | cons p d ih =>
    intro hm
    have hb : (p.1 == k) = false := by
      cases hb2 : (p.1 == k) with
      | true => simp [dictMem, hb2] at hm
      | false => rfl
    have hm2 : dictMem d k = false := by simpa [dictMem, hb] using hm
    simpa [dictGet, List.find?, hb] using ih hm2

theorem dictGet_insert_self (d : List (String × β)) (k : String) (v : β) :
    dictGet (dictInsert d k v) k = some v := by
  rw [dictInsert]
  cases hm : dictMem d k with
  | true =>
    rw [if_pos rfl]
    exact dictGet_map_insert k v d hm
  | false =>
    rw [if_neg (by simp [hm])]
    exact dictGet_append_insert k v d hm

theorem dictMem_map_insert (k : String) (v : β) (k2 : String) :
    ∀ d : List (String × β),
      dictMem (d.map (fun p => if (p.1 == k) = true then (k, v) else p)) k2 =
        dictMem d k2 := by
  intro d
  induction d with
  | nil => rfl
  | cons p d ih =>
    have hkeys : ((if (p.1 == k) = true then (k, v) else p).1 == k2) =
        (p.1 == k2) := by
      cases hb : (p.1 == k) with
      | true =>
        have hpk : p.1 = k := by simpa using hb
        simp [hpk]
      | false => simp [hb]
    have ih2 := ih
    simp only [dictMem] at ih2
    simp only [List.map_cons, dictMem, List.any_cons, hkeys, ih2]

theorem dictMem_insert (d : List (String × β)) (k : String) (v : β)
    (k2 : String) :
    dictMem (dictInsert d k v) k2 = (dictMem d k2 || k == k2) := by
  rw [dictInsert]
  cases hm : dictMem d k with
  | true =>
    rw [if_pos rfl, dictMem_map_insert]
    cases hk : (k == k2) with
    | true =>
      have hkk : k = k2 := by simpa using hk
      subst hkk
      simp [hm]
    | false => simp
  | false =>
    rw [if_neg (by simp [hm])]
    simp [dictMem, List.any_append]

theorem dictMem_of_dictGet {d : List (String × β)} {k : String} {v : β}
    (h : dictGet d k = some v) : dictMem d k = true := by
  rw [dictMem_eq_isSome, h]
  rfl

theorem dictGet_eq_none {d : List (String × β)} {k : String}
    (h : dictMem d k = false) : dictGet d k = none := by
  rw [dictMem_eq_isSome] at h
  exact Option.not_isSome_iff_eq_none.mp (by simp [h])

/-- The class-level state of `Registry`: `register` is `_register`
(the spec's `classMap`), `instances` is `_instances` (the spec's
`instanceMap`). -/
structure RegState where
  register : List (String × PatternClass)
  instances : List (String × PatternInstance)
  deriving DecidableEq, Repr

/-- The registry at process start: both dicts empty. -/
def emptyReg : RegState := ⟨[], []⟩

namespace RegState

/-- `Registry.register(subcls)`: raise `ValueError` when the name is already
a key of `_register` (reading the existing entry's `__name__` for the
message), else insert.  `name` is the validated string value of
`subcls.name`; the state is returned as it stands when the call finishes or
raises. -/
def registerCls (st : RegState) (c : PatternClass) (name : String) :
    RegState × Option PyErr :=
  if dictMem st.register name then
    (st, some (.valueErrorDuplicate c.clsName
      (match dictGet st.register name with
       | some existing => existing.clsName
       | none => "")))
  else ({ st with register := dictInsert st.register name c }, none)

/-- Defining a subclass of `BasePattern`: class creation runs
`__init_subclass__`, which checks `cls.name is None`, then
`not isinstance(cls.name, str) or not cls.name`, then calls
`Registry.register(cls)`.  Note that no check of `on_pivot` happens here:
the ABC machinery only intervenes at instantiation time. -/
def declare (st : RegState) (c : PatternClass) : RegState × Option PyErr :=
  match c.pyName with
  | .pynone => (st, some (.valueErrorNameRequired c.clsName))
  | .pyother => (st, some (.valueErrorNameInvalid c.clsName))
  | .pystr s =>
    if s = "" then (st, some (.valueErrorNameInvalid c.clsName))
    else st.registerCls c s

/-- `cls(**kwargs)`: instantiating an ABC subclass that does not override
the abstract `on_pivot` raises `TypeError` before `__init__` runs; then
`__init__` itself may raise; a successful construction yields an object
recording the class and the configuration used. -/
def instantiate (c : PatternClass) (cfg : Config) :
    Except PyErr PatternInstance :=
  if c.implementsOnPivot = false then .error (.typeErrorAbstract c.clsName)
  else if c.initRaises then .error (.initError c.clsName)
  else .ok ⟨c.clsName, cfg⟩

/-- `Registry.get_instance(name)`: `return cls._instances[name]`, raising
`KeyError` when absent. -/
def getInstance (st : RegState) (name : String) :
    Except PyErr PatternInstance :=
  match dictGet st.instances name with
  | some inst => .ok inst
  | none => .error (.keyError name)

/-- `Registry.create(name, **kwargs)`: when `name` is not a key of
`_instances`, evaluate `cls._register[name](**kwargs)` (the lookup may raise
`KeyError`, the construction may raise) and only then assign
`_instances[name]`; finally `return cls._instances[name]`.  The two `none`
fallbacks of the final lookups are unreachable: the key was just checked or
just inserted. -/
def create (st : RegState) (name : String) (cfg : Config) :
    RegState × Except PyErr PatternInstance :=
  if dictMem st.instances name then
    match dictGet st.instances name with
    | some inst => (st, .ok inst)
    | none => (st, .error (.keyError name))
  else
    match dictGet st.register name with
    | none => (st, .error (.keyError name))
    | some c =>
      match instantiate c cfg with
      | .error e => (st, .error e)
      | .ok inst =>
        let st2 := { st with instances := dictInsert st.instances name inst }
        match dictGet st2.instances name with
        | some inst2 => (st2, .ok inst2)
        | none => (st2, .error (.keyError name))

/-- `Registry.all()` returns `cls._register` itself — the very dict object,
not a copy. -/
def allMap (st : RegState) : List (String × PatternClass) := st.register

/-- `Registry.all()[k] = c`: an in-place insertion performed on the mapping
returned by `all()`.  Because `all()` returns the registry's own dict, this
is an insertion into `cls._register`. -/
def allMapSetItem (st : RegState) (k : String) (c : PatternClass) : RegState :=
  { st with register := dictInsert st.register k c }

end RegState

namespace DLL

/-- The structural facts claimed for one list state: emptiness of `size`,
`head` and `tail` agree; forward traversal starts at the head, ends at the
tail and visits exactly `size` nodes; backward traversal is its exact
reverse (so it starts at the tail, ends at the head and also visits `size`
nodes); and `length()` agrees with the element count of either traversal. -/
def structuralOK (l : DLL α) : Prop :=
  (l.size = 0 ↔ l.head = none) ∧
  (l.head = none ↔ l.tail = none) ∧
  l.toListRev = l.toList.reverse ∧
  l.bwdNodes = l.fwdNodes.reverse ∧
  l.fwdNodes.head? = l.head ∧
  l.fwdNodes.getLast? = l.tail ∧
  l.bwdNodes.head? = l.tail ∧
  l.bwdNodes.getLast? = l.head ∧
  l.size = (l.fwdNodes.length : Int) ∧
  l.length = (l.toList.length : Int) ∧
  l.length = (l.toListRev.length : Int)

/-- The invariant implies every structural fact of `structuralOK`. -/
theorem Inv.structural {l : DLL α} {ps : List (Nat × α)} (h : Inv l ps) :
    structuralOK l := by
  obtain ⟨h1, h2, h3, h4, h5, h6, h7, h8, h9⟩ := h.props
  refine ⟨h1, h2, h3, h4, h5, h6, ?_, ?_, h9, h7, h8⟩
  · rw [h4, List.head?_reverse, h6]
  · rw [h4, List.getLast?_reverse, h5]

end DLL

/-- C1: for every sequence of the operations `append`, `appendleft`, `pop`,
`popleft`, `insertAfter`, `insertBefore` and `removeNode` — each insert and
remove applied to a node currently belonging to the list — the resulting
list satisfies the structural invariants: `size == 0` iff the head is absent
iff the tail is absent; forward traversal from the head visits exactly
`size` nodes ending at the tail; backward traversal from the tail visits
exactly `size` nodes ending at the head; the backward traversal is the exact
reverse of the forward traversal; and `length()` equals the element count of
either traversal. -/
theorem C1_operations_preserve_invariants {α : Type} (ops : List (DLL.Op α))
    (hv : DLL.validSeq DLL.empty ops = true) :
    DLL.structuralOK (DLL.runOps DLL.empty ops) := by
  obtain ⟨ps, h⟩ := DLL.runOps_inv DLL.empty_inv hv
  exact h.structural

/-- A concrete operation sequence exercising every operation of claim C1. -/
def opsC1 : List (DLL.Op Nat) :=
  [.appendOp 1, .appendOp 2, .appendleftOp 0, .insertAfterOp 0 7,
   .insertBeforeOp 1 8, .removeNodeOp 0, .popOp, .popleftOp]

theorem C1_witness :
    DLL.validSeq DLL.empty opsC1 = true ∧
      DLL.structuralOK (DLL.runOps DLL.empty opsC1) :=
  ⟨by decide, C1_operations_preserve_invariants opsC1 (by decide)⟩

/-- C6: `append(v)` adds `v` after the current tail and the returned node
becomes the new tail; `appendleft(v)` symmetrically becomes the new head;
`pop()` removes and returns the tail value; `popleft()` removes and returns
the head value; concretely, starting empty, `append 1; append 2;
appendleft 0` makes forward traversal `[0,1,2]`, then `pop` returns `2`
leaving `[0,1]`, then `popleft` returns `0` leaving `[1]`. -/
theorem C6_append_pop_semantics {α : Type} {l : DLL α} {ps : List (Nat × α)}
    (h : DLL.Inv l ps) (v : α) :
    ((l.append v).1.toList = l.toList ++ [v] ∧
      (l.append v).1.tail = some (l.append v).2) ∧
    ((l.appendleft v).1.toList = v :: l.toList ∧
      (l.appendleft v).1.head = some (l.appendleft v).2) ∧
    (l.toList ≠ [] → ∃ x, l.pop = Except.ok x ∧
      some x.1 = l.toList.getLast? ∧ x.2.toList = l.toList.dropLast) ∧
    (l.toList ≠ [] → ∃ x, l.popleft = Except.ok x ∧
      some x.1 = l.toList.head? ∧ x.2.toList = l.toList.tail) ∧
    ((((DLL.empty.append 1).1.append 2).1.appendleft 0).1.toList = [0, 1, 2] ∧
      ((((DLL.empty.append 1).1.append 2).1.appendleft 0).1.pop.bind fun x =>
        x.2.popleft.map fun y => (x.1, x.2.toList, y.1, y.2.toList)) =
        Except.ok (2, [0, 1], 0, [1])) := by
  have htl : l.toList = ps.map Prod.snd := by rw [DLL.toList, h.fwdPairs_eq]
  have ha := DLL.append_inv h v
  have hal := DLL.appendleft_inv h v
  refine ⟨⟨?_, ?_⟩, ⟨?_, ?_⟩, ?_, ?_, by rfl, by rfl⟩
  · rw [DLL.toList, ha.fwdPairs_eq, htl]
    simp
  · rw [ha.tail_ok, DLL.append_snd, DLL.lastPtr_append]
    rfl
  · rw [DLL.toList, hal.fwdPairs_eq, htl]
    simp
  · rw [hal.head_ok, DLL.appendleft_snd]
    rfl
  · intro hne
    rcases List.eq_nil_or_concat ps with rfl | ⟨xs, x, rfl⟩
    · exact absurd (by rw [htl]; rfl) hne
    · obtain ⟨t, w⟩ := x
      rw [List.concat_eq_append] at h htl
      obtain ⟨hpop, hinv⟩ := DLL.pop_inv h
      refine ⟨(w, l.removeNode t), hpop, ?_, ?_⟩
      · rw [htl]
        simp [List.getLast?_concat]
      · rw [DLL.toList, hinv.fwdPairs_eq, htl]
        simp
  · intro hne
    cases ps with
    | nil => exact absurd (by rw [htl]; rfl) hne
    | cons x rest =>
      obtain ⟨hd, w⟩ := x
      obtain ⟨hpop, hinv⟩ := DLL.popleft_inv h
      refine ⟨(w, l.removeNode hd), hpop, ?_, ?_⟩
      · rw [htl]
        rfl
      · rw [DLL.toList, hinv.fwdPairs_eq, htl]
        rfl

theorem C6_witness :
    ((DLL.empty.append 5).1.toList = (DLL.empty : DLL Nat).toList ++ [5] ∧
      (DLL.empty.append (5 : Nat)).1.tail = some (DLL.empty.append 5).2) :=
  (C6_append_pop_semantics DLL.empty_inv 5).1

/-- C7: `pop` and `popleft` on a list of size 0 fail with the
`EmptyContainer` error (`IndexError` in the source) and leave the list
unchanged, so a subsequent successful `append` followed by `pop` still
returns the appended value. -/
theorem C7_empty_pop_fails {α : Type} {l : DLL α} {ps : List (Nat × α)}
    (h : DLL.Inv l ps) (hsz : l.size = 0) :
    l.pop = Except.error "pop from empty list" ∧
    l.popleft = Except.error "popleft from empty list" ∧
    DLL.applyOp l .popOp = l ∧
    DLL.applyOp l .popleftOp = l ∧
    ∀ v : α, ∃ l2 : DLL α, (l.append v).1.pop = Except.ok (v, l2) ∧
      l2.toList = [] ∧ l2.size = 0 := by
  have hnil : ps = [] := by
    have hs := h.size_ok
    rw [hsz] at hs
    have hlen : ps.length = 0 := by exact_mod_cast hs.symm
    exact List.length_eq_zero.mp hlen
  subst hnil
  refine ⟨DLL.pop_empty h, DLL.popleft_empty h, ?_, ?_, ?_⟩
  · simp [DLL.applyOp, DLL.pop_empty h]
  · simp [DLL.applyOp, DLL.popleft_empty h]
  · intro v
    have ha := DLL.append_inv h v
    obtain ⟨hpop, hinv⟩ := DLL.pop_inv ha
    refine ⟨_, hpop, ?_, ?_⟩
    · rw [DLL.toList, hinv.fwdPairs_eq]
      rfl
    · simpa using hinv.size_ok

theorem C7_witness :
    (DLL.empty : DLL Nat).pop = Except.error "pop from empty list" :=
  (C7_empty_pop_fails DLL.empty_inv rfl).1

/-- C8: for every list and node belonging to it, `insertAfter(node, v)`
immediately followed by `removeNode` on the newly inserted node restores the
prior forward traversal (values and nodes) and the prior length exactly. -/
theorem C8_insert_remove_restores {α : Type} {l : DLL α} {ps : List (Nat × α)}
    (h : DLL.Inv l ps) {i : Nat} (hm : i ∈ l.fwdNodes) (v : α) :
    ((l.insertAfter i v).1.removeNode (l.insertAfter i v).2).toList =
      l.toList ∧
    ((l.insertAfter i v).1.removeNode (l.insertAfter i v).2).fwdNodes =
      l.fwdNodes ∧
    ((l.insertAfter i v).1.removeNode (l.insertAfter i v).2).length =
      l.length := by
  obtain ⟨xs, w, ys, rfl⟩ := h.exists_split hm
  have hins := DLL.insertAfter_inv h v
  rw [DLL.insertAfter_snd]
  have hassoc : xs ++ (i, w) :: (l.nextId, v) :: ys =
      (xs ++ [(i, w)]) ++ (l.nextId, v) :: ys := by simp
  rw [hassoc] at hins
  have hrem := DLL.removeNode_inv hins
  refine ⟨?_, ?_, ?_⟩
  · rw [DLL.toList, DLL.toList, hrem.fwdPairs_eq, h.fwdPairs_eq]
    simp
  · rw [DLL.fwdNodes, DLL.fwdNodes, hrem.fwdPairs_eq, h.fwdPairs_eq]
    simp
  · rw [DLL.length, DLL.length, hrem.size_ok, h.size_ok]
    simp only [List.length_append, List.length_cons, List.length_nil,
      List.length_singleton]
    push_cast
    omega

theorem C8_witness :
    (((DLL.empty.append 3).1.insertAfter 0 9).1.removeNode
        ((DLL.empty.append (3 : Nat)).1.insertAfter 0 9).2).toList =
      (DLL.empty.append 3).1.toList :=
  (C8_insert_remove_restores (DLL.append_inv DLL.empty_inv 3) (by decide) 9).1

/-- A variant with a valid name that does not override `on_pivot`. -/
def cNoPivot : PatternClass := ⟨.pystr "x", "NoPivot", false, false⟩

/-- A fully well-formed variant. -/
def cGood : PatternClass := ⟨.pystr "good", "Good", true, false⟩

/-- A variant whose `name` attribute was never set (stays `None`). -/
def cNoName : PatternClass := ⟨.pynone, "NoName", true, false⟩

/-- A variant whose `name` is the empty string. -/
def cEmptyName : PatternClass := ⟨.pystr "", "EmptyName", true, false⟩

/-- A variant whose `name` is not a string. -/
def cBadName : PatternClass := ⟨.pyother, "BadName", true, false⟩

/-- A registry state with one registered (not yet instantiated) variant. -/
def stGood : RegState := ⟨[("good", cGood)], []⟩

/-- C2 fails on the code: a variant with a valid non-empty name that does
not implement `on_pivot` declares successfully (no error is raised at class
creation) and its name IS registered in `classMap`; Python's ABC machinery
rejects abstract classes only at instantiation time, and
`__init_subclass__` performs no `on_pivot` check. -/
theorem C2_counterexample :
    (emptyReg.declare cNoPivot).2 = none ∧
      dictMem (emptyReg.declare cNoPivot).1.register "x" = true := by
  constructor <;> rfl

/-- C2 (amended): declaring a variant with a valid non-empty name but no
`on_pivot` implementation succeeds and registers the name in `classMap`;
the abstract-contract violation (`TypeError`) surfaces only when `create`
first tries to instantiate the variant, which then fails leaving
`instanceMap` unchanged. -/
theorem C2_missing_on_pivot_still_registers {st : RegState}
    {c : PatternClass} {s : String} (hname : c.pyName = .pystr s)
    (hs : s ≠ "") (hnopiv : c.implementsOnPivot = false)
    (hfresh : dictMem st.register s = false)
    (hnoinst : dictMem st.instances s = false) (cfg : Config) :
    (st.declare c).2 = none ∧
    dictGet (st.declare c).1.register s = some c ∧
    (st.declare c).1.create s cfg =
      ((st.declare c).1, Except.error (.typeErrorAbstract c.clsName)) := by
  have hdecl : st.declare c =
      ({ st with register := dictInsert st.register s c }, none) := by
    simp only [RegState.declare, hname]
    rw [if_neg hs, RegState.registerCls, if_neg (by simp [hfresh])]
  have hg : dictGet (dictInsert st.register s c) s = some c :=
    dictGet_insert_self _ _ _
  have hinst : RegState.instantiate c cfg =
      Except.error (.typeErrorAbstract c.clsName) := by
    rw [RegState.instantiate, if_pos hnopiv]
  refine ⟨by rw [hdecl], by rw [hdecl]; exact hg, ?_⟩
  rw [hdecl]
  dsimp only
  rw [RegState.create, if_neg (by simp [hnoinst])]
  dsimp only
  rw [hg]
  dsimp only
  rw [hinst]

theorem C2_amended_witness :
    (emptyReg.declare cNoPivot).2 = none ∧
    dictGet (emptyReg.declare cNoPivot).1.register "x" = some cNoPivot ∧
    (emptyReg.declare cNoPivot).1.create "x" [] =
      ((emptyReg.declare cNoPivot).1,
        Except.error (.typeErrorAbstract "NoPivot")) :=
  C2_missing_on_pivot_still_registers rfl (by decide) rfl (by decide)
    (by decide) []

/-- C3 fails on the code: `all()` returns `cls._register` itself, so an
insertion performed on the returned mapping changes what a subsequent
`all()` observes. -/
theorem C3_counterexample :
    RegState.allMap (RegState.allMapSetItem emptyReg "b" cGood) ≠
      RegState.allMap emptyReg := by decide

/-- C3 (amended): `all()` returns the registry's own `classMap` (an alias,
not a copy); inserting into the returned mapping inserts into the registry:
the new key is visible to a later `all()` and makes a later declaration of
that name fail with the duplicate-name error. -/
theorem C3_all_view_mutation_visible {st : RegState} {k : String}
    {c c2 : PatternClass} (hk : k ≠ "") (hname : c2.pyName = .pystr k) :
    RegState.allMap (st.allMapSetItem k c) = dictInsert st.register k c ∧
    dictMem (RegState.allMap (st.allMapSetItem k c)) k = true ∧
    (st.allMapSetItem k c).declare c2 =
      (st.allMapSetItem k c,
        some (.valueErrorDuplicate c2.clsName c.clsName)) := by
  have hm : dictMem (dictInsert st.register k c) k = true := by
    rw [dictMem_insert]
    simp
  refine ⟨rfl, hm, ?_⟩
  simp only [RegState.declare, hname]
  rw [if_neg hk]
  simp only [RegState.registerCls, RegState.allMapSetItem]
  rw [if_pos hm]
  rw [dictGet_insert_self]

theorem C3_amended_witness :
    RegState.allMap (emptyReg.allMapSetItem "good" cGood) =
      dictInsert emptyReg.register "good" cGood ∧
    dictMem (RegState.allMap (emptyReg.allMapSetItem "good" cGood))
      "good" = true ∧
    (emptyReg.allMapSetItem "good" cGood).declare cGood =
      (emptyReg.allMapSetItem "good" cGood,
        some (.valueErrorDuplicate "Good" "Good")) :=
  C3_all_view_mutation_visible (by decide) rfl

/-- C4: a declaration whose name is missing, empty or not a string fails
with the `InvalidPatternName` errors (`ValueError` in the source), and a
declaration whose name is already a key of `classMap` fails with the
`DuplicatePattern` error; in every failing case the registry state returned
is exactly the input state — nothing was inserted. -/
theorem C4_invalid_and_duplicate_declarations (st : RegState)
    (c : PatternClass) :
    (c.pyName = .pynone →
      st.declare c = (st, some (.valueErrorNameRequired c.clsName))) ∧
    (c.pyName = .pyother →
      st.declare c = (st, some (.valueErrorNameInvalid c.clsName))) ∧
    (c.pyName = .pystr "" →
      st.declare c = (st, some (.valueErrorNameInvalid c.clsName))) ∧
    (∀ s ex, c.pyName = .pystr s → s ≠ "" →
      dictGet st.register s = some ex →
      st.declare c = (st, some (.valueErrorDuplicate c.clsName
        ex.clsName))) := by
  refine ⟨?_, ?_, ?_, ?_⟩
  · intro hn
    rw [RegState.declare, hn]
  · intro hn
    rw [RegState.declare, hn]
  · intro hn
    simp only [RegState.declare, hn]
    rw [if_pos trivial]
  · intro s ex hn hs hg
    simp only [RegState.declare, hn]
    rw [if_neg hs, RegState.registerCls, if_pos (dictMem_of_dictGet hg), hg]

theorem C4_witness :
    emptyReg.declare cNoName =
      (emptyReg, some (.valueErrorNameRequired "NoName")) ∧
    emptyReg.declare cBadName =
      (emptyReg, some (.valueErrorNameInvalid "BadName")) ∧
    emptyReg.declare cEmptyName =
      (emptyReg, some (.valueErrorNameInvalid "EmptyName")) ∧
    stGood.declare cGood =
      (stGood, some (.valueErrorDuplicate "Good" "Good")) :=
  ⟨(C4_invalid_and_duplicate_declarations emptyReg cNoName).1 rfl,
   (C4_invalid_and_duplicate_declarations emptyReg cBadName).2.1 rfl,
   (C4_invalid_and_duplicate_declarations emptyReg cEmptyName).2.2.1 rfl,
   (C4_invalid_and_duplicate_declarations stGood cGood).2.2.2 "good" cGood
     rfl (by decide) (by decide)⟩

/-- C5: for a registered name with no cached instance, `create(name, cfg)`
constructs the instance from `classMap[name]` with `cfg`, caches it in
`instanceMap` (leaving `classMap` alone), and every later
`create(name, cfg2)` returns that identical cached instance — still carrying
the first call's `cfg` — without touching the state. -/
theorem C5_create_caches_first_config {st : RegState} {name : String}
    {c : PatternClass} (hreg : dictGet st.register name = some c)
    (hpiv : c.implementsOnPivot = true) (hinit : c.initRaises = false)
    (hnoinst : dictMem st.instances name = false) (cfg : Config) :
    (st.create name cfg).2 = Except.ok ⟨c.clsName, cfg⟩ ∧
    dictGet (st.create name cfg).1.instances name = some ⟨c.clsName, cfg⟩ ∧
    (st.create name cfg).1.register = st.register ∧
    ∀ cfg2, (st.create name cfg).1.create name cfg2 =
      ((st.create name cfg).1, Except.ok ⟨c.clsName, cfg⟩) := by
  have hinst : RegState.instantiate c cfg =
      Except.ok ⟨c.clsName, cfg⟩ := by
    rw [RegState.instantiate, if_neg (by simp [hpiv]), if_neg (by simp [hinit])]
  have hcr : st.create name cfg =
      ({ st with instances := dictInsert st.instances name ⟨c.clsName, cfg⟩ },
        Except.ok ⟨c.clsName, cfg⟩) := by
    rw [RegState.create, if_neg (by simp [hnoinst]), hreg]
    dsimp only
    rw [hinst]
    dsimp only
    rw [dictGet_insert_self]
  rw [hcr]
  have hm2 : dictMem (dictInsert st.instances name ⟨c.clsName, cfg⟩)
      name = true := by
    rw [dictMem_insert]
    simp
  refine ⟨rfl, dictGet_insert_self _ _ _, rfl, ?_⟩
  intro cfg2
  dsimp only
  rw [RegState.create, if_pos hm2]
  dsimp only
  rw [dictGet_insert_self]

theorem C5_witness :
    (stGood.create "good" [("a", 1)]).2 = Except.ok ⟨"Good", [("a", 1)]⟩ ∧
    dictGet (stGood.create "good" [("a", 1)]).1.instances "good" =
      some ⟨"Good", [("a", 1)]⟩ ∧
    (stGood.create "good" [("a", 1)]).1.register = stGood.register ∧
    ∀ cfg2, (stGood.create "good" [("a", 1)]).1.create "good" cfg2 =
      ((stGood.create "good" [("a", 1)]).1,
        Except.ok ⟨"Good", [("a", 1)]⟩) :=
  @C5_create_caches_first_config stGood "good" cGood (by decide) rfl rfl
    (by decide) [("a", 1)]

/-- C9: `create(name, cfg)` fails with the `NotFound` error (`KeyError`)
when `name` is not registered, and `getInstance(name)` fails with
`NotFound` when no instance has been created for `name`; neither returns an
instance and `create` leaves the state untouched. -/
theorem C9_notfound_errors {st : RegState} {name : String}
    (hnoinst : dictMem st.instances name = false) (cfg : Config) :
    (dictMem st.register name = false →
      st.create name cfg = (st, Except.error (.keyError name))) ∧
    st.getInstance name = Except.error (.keyError name) := by
  constructor
  · intro hreg
    rw [RegState.create, if_neg (by simp [hnoinst]), dictGet_eq_none hreg]
  · rw [RegState.getInstance, dictGet_eq_none hnoinst]

theorem C9_witness :
    (emptyReg.create "zzz" [] = (emptyReg, Except.error (.keyError "zzz"))) ∧
      emptyReg.getInstance "zzz" = Except.error (.keyError "zzz") :=
  ⟨(C9_notfound_errors (by decide) []).1 (by decide),
   (@C9_notfound_errors emptyReg "zzz" (by decide) []).2⟩

/-- C10: `create` is atomic on failure — an error outcome leaves the state
exactly as it was — and `create` preserves the containment of
`instanceMap`'s keys in `classMap`'s keys. -/
theorem C10_create_atomic (st : RegState) (name : String) (cfg : Config) :
    (∀ e, (st.create name cfg).2 = Except.error e →
      (st.create name cfg).1 = st) ∧
    ((∀ k, dictMem st.instances k = true → dictMem st.register k = true) →
      ∀ k, dictMem (st.create name cfg).1.instances k = true →
        dictMem (st.create name cfg).1.register k = true) := by
  cases hmem : dictMem st.instances name with
  | true =>
    have h1 : (st.create name cfg).1 = st := by
      rw [RegState.create, if_pos hmem]
      cases dictGet st.instances name <;> rfl
    constructor
    · intro e _
      exact h1
    · intro hsub k hk
      rw [h1] at hk ⊢
      exact hsub k hk
  | false =>
    cases hreg : dictGet st.register name with
    | none =>
      have h1 : st.create name cfg = (st, Except.error (.keyError name)) := by
        rw [RegState.create, if_neg (by simp [hmem]), hreg]
      constructor
      · intro e _
        rw [h1]
      · intro hsub k hk
        rw [h1] at hk ⊢
        exact hsub k hk
    | some c =>
      cases hinst : RegState.instantiate c cfg with
      | error e2 =>
        have h1 : st.create name cfg = (st, Except.error e2) := by
          rw [RegState.create, if_neg (by simp [hmem]), hreg]
          dsimp only
          rw [hinst]
        constructor
        · intro e _
          rw [h1]
        · intro hsub k hk
          rw [h1] at hk ⊢
          exact hsub k hk
      | ok inst =>
        have h1 : st.create name cfg =
            ({ st with instances := dictInsert st.instances name inst },
              Except.ok inst) := by
          rw [RegState.create, if_neg (by simp [hmem]), hreg]
          dsimp only
          rw [hinst]
          dsimp only
          rw [dictGet_insert_self]
        constructor
        · intro e he
          rw [h1] at he
          cases he
        · intro hsub k hk
          rw [h1] at hk ⊢
          dsimp only at hk ⊢
          rw [dictMem_insert] at hk
          rcases Bool.or_eq_true_iff.mp hk with hk | hk
          · exact hsub k hk
          · have hkn : name = k := by simpa using hk
            subst hkn
            exact dictMem_of_dictGet hreg

theorem C10_witness :
    (emptyReg.create "x" []).1 = emptyReg ∧
      dictMem (stGood.create "good" []).1.register "good" = true :=
  ⟨(C10_create_atomic emptyReg "x" []).1 (.keyError "x") rfl,
   (C10_create_atomic stGood "good" []).2 (fun _ h => Bool.noConfusion h)
     "good" (by decide)⟩

end PrecisePatterns
